import Mathlib

/-!
A shallow embedding of the Markdown → Google-Docs-requests compiler in
src/markdown.ts of kualibuild/kuali-docs-mcp, together with theorems about
its behaviour.

Conventions of the embedding:
* JS strings are modelled as `List Char` (the compiler walks them
  character by character); the public entry point takes a `String` and
  works on its `.data`.
* A TS optional boolean property (`bold?: boolean`) is an `Option Bool`
  (`none` = the property is absent / `undefined`).
* Each `while` loop of the hand-rolled scanner in `parseInline` becomes one
  function of a mutual block, so the whole scanner is structurally
  recursive and computable by the kernel.
-/

namespace KualiDocs

/-- The backtick character (code 96), written via `Char.ofNat`. -/
def btick : Char := Char.ofNat 96

/-- Values of `namedStyleType` used by markdown.ts: the `style` field of a
`DocSegment` is one of "HEADING_1" | "HEADING_2" | "HEADING_3" | "NORMAL_TEXT". -/
inductive PStyle where
  | heading1
  | heading2
  | heading3
  | normalText
  deriving DecidableEq, Repr

/-- markdown.ts `InlineSegment`: `{ text: string; bold?: boolean; italic?: boolean }`. -/
structure InlineSegment where
  text : List Char
  bold : Option Bool := none
  italic : Option Bool := none
  deriving DecidableEq, Repr

/-- markdown.ts `DocSegment`: `{ inlines; style; bullet?: boolean }`. -/
structure DocSegment where
  inlines : List InlineSegment
  style : PStyle
  bullet : Bool := false
  deriving DecidableEq, Repr

/-- The `textStyle` object built at line 126 of markdown.ts:
`{ bold: inline.bold, italic: inline.italic }`.  Both properties are always
present on the object (possibly with value `undefined`), hence two
`Option Bool` fields. -/
structure TextStyle where
  bold : Option Bool
  italic : Option Bool
  deriving DecidableEq, Repr

/-- The entries of the `styleRanges` array of `markdownToDocRequests`. -/
structure StyleRange where
  startIndex : Nat
  endIndex : Nat
  paragraphStyle : Option PStyle := none
  textStyle : Option TextStyle := none
  bullet : Bool := false
  deriving DecidableEq, Repr

/-- The four request shapes pushed onto `requests` by `markdownToDocRequests`.
`updateTextStyle` carries the `fields` list (markdown.ts joins it with ","). -/
inductive Request where
  | insertText (index : Nat) (text : List Char)
  | updateParagraphStyle (startIndex endIndex : Nat) (namedStyleType : PStyle)
  | createParagraphBullets (startIndex endIndex : Nat)
  | updateTextStyle (startIndex endIndex : Nat) (style : TextStyle) (fields : List String)
  deriving DecidableEq, Repr

/-- JS truthiness of a possibly-absent boolean (`inline.bold || inline.italic`). -/
def truthy : Option Bool → Bool
  | some b => b
  | none => false

/-- JS `Object.keys` on the literal `{ bold: ..., italic: ... }`: a property
assigned `undefined` is still an own enumerable property, so the result is
always `["bold", "italic"]` whatever the two values are. -/
def tsObjectKeys (_ts : TextStyle) : List String := ["bold", "italic"]

/-- Flush of the pending plain accumulator, skipped when empty:
`if (current) result.push({ text: current })`. -/
def flushAcc (cur : List Char) : List InlineSegment :=
  if cur = [] then [] else [⟨cur, none, none⟩]

mutual

/-- The outer `while` of markdown.ts `parseInline` (lines 20–54), with the
pending plain-text accumulator `cur` (`current` in the source).  The branch
tests mirror the source: `text[i] === "*" && text[i+1] === "*"` is the
two-star pattern, a lone `*` (not followed by `*`, including at end of
input) opens an italic run, a backtick opens a code run rendered as italic. -/
def parseInlineL : List Char → List Char → List InlineSegment
  | [], cur => flushAcc cur
  | '*' :: '*' :: rest, cur => flushAcc cur ++ parseBoldRun rest []
  | c :: rest, cur =>
    if c = '*' then flushAcc cur ++ parseItalicRun rest []
    else if c = btick then flushAcc cur ++ parseCodeRun rest []
    else parseInlineL rest (cur ++ [c])
termination_by structural l _ => l

/-- The inner bold loop (lines 25–30): consume until the next `**` pair (a
lone trailing `*` is consumed into the run) or end of input, then emit the
run with `bold: true`. -/
def parseBoldRun : List Char → List Char → List InlineSegment
  | [], acc => [⟨acc, some true, none⟩]
  | '*' :: '*' :: rest, acc => ⟨acc, some true, none⟩ :: parseInlineL rest []
  | c :: rest, acc => parseBoldRun rest (acc ++ [c])
termination_by structural l _ => l

/-- The inner italic loop (lines 35–40): consume until the next `*` or end
of input, then emit the run with `italic: true`. -/
def parseItalicRun : List Char → List Char → List InlineSegment
  | [], acc => [⟨acc, none, some true⟩]
  | c :: rest, acc =>
    if c = '*' then ⟨acc, none, some true⟩ :: parseInlineL rest []
    else parseItalicRun rest (acc ++ [c])
termination_by structural l _ => l

/-- The inner code loop (lines 45–50): consume until the next backtick or
end of input, then emit the run with `italic: true` (code renders as italic). -/
def parseCodeRun : List Char → List Char → List InlineSegment
  | [], acc => [⟨acc, none, some true⟩]
  | c :: rest, acc =>
    if c = btick then ⟨acc, none, some true⟩ :: parseInlineL rest []
    else parseCodeRun rest (acc ++ [c])
termination_by structural l _ => l

end

/-- markdown.ts `parseInline` (line 15). -/
def parseInline (text : String) : List InlineSegment :=
  parseInlineL text.data []


/-- JS `markdown.split("\n")` on the character list: always returns at least
one (possibly empty) line; a trailing newline yields a trailing empty line. -/
def splitLines : List Char → List (List Char)
  | [] => [[]]
  | c :: rest =>
    if c = '\n' then [] :: splitLines rest
    else
      match splitLines rest with
      | [] => [[c]]
      | l :: ls => (c :: l) :: ls


/-- Line terminators of the JS regex grammar: the characters `.` can never
match (LF, CR, LINE SEPARATOR U+2028, PARAGRAPH SEPARATOR U+2029). -/
def isLineTerm (c : Char) : Bool :=
  c = '\n' ∨ c = '\r' ∨ c = '\u2028' ∨ c = '\u2029'

/-- What a greedy `(.+)` with nothing after it captures from `rest`: the
longest prefix of characters that are not line terminators.  The regex
matches iff this capture is non-empty (`.+` needs at least one character,
and `.` refuses line terminators such as a carriage return left over from a
CRLF input). -/
def dotCapture (rest : List Char) : List Char :=
  rest.takeWhile (fun c => !isLineTerm c)

/-- The regex `/^# (.+)/` of markdown.ts line 65: one hash, one space, then a
non-empty `.+` capture (stopping at any line terminator). -/
def h1Match : List Char → Option (List Char)
  | c1 :: c2 :: rest =>
    if c1 = '#' ∧ c2 = ' ' ∧ dotCapture rest ≠ [] then some (dotCapture rest) else none
  | _ => none

/-- The regex `/^## (.+)/` of markdown.ts line 66. -/
def h2Match : List Char → Option (List Char)
  | c1 :: c2 :: c3 :: rest =>
    if c1 = '#' ∧ c2 = '#' ∧ c3 = ' ' ∧ dotCapture rest ≠ [] then
      some (dotCapture rest)
    else none
  | _ => none

/-- The regex `/^### (.+)/` of markdown.ts line 67. -/
def h3Match : List Char → Option (List Char)
  | c1 :: c2 :: c3 :: c4 :: rest =>
    if c1 = '#' ∧ c2 = '#' ∧ c3 = '#' ∧ c4 = ' ' ∧ dotCapture rest ≠ [] then
      some (dotCapture rest)
    else none
  | _ => none

/-- The regex `/^[-*] (.+)/` of markdown.ts line 68. -/
def bulletMatch : List Char → Option (List Char)
  | c1 :: c2 :: rest =>
    if (c1 = '-' ∨ c1 = '*') ∧ c2 = ' ' ∧ dotCapture rest ≠ [] then
      some (dotCapture rest)
    else none
  | _ => none

/-- The whitespace set stripped by JS `String.prototype.trim`: tab, LF,
vertical tab, form feed, CR, the Unicode Space_Separator category (space,
NBSP, U+1680, U+2000–U+200A, U+202F, U+205F, U+3000), ZWNBSP/BOM (U+FEFF),
and the line separators U+2028/U+2029. -/
def isJsWhitespace (c : Char) : Bool :=
  c = ' ' ∨ c = '\t' ∨ c = '\n' ∨ c = '\u000B' ∨ c = '\u000C' ∨ c = '\r' ∨
  c = '\u00A0' ∨ c = '\u1680' ∨ (0x2000 ≤ c.val ∧ c.val ≤ 0x200A) ∨
  c = '\u2028' ∨ c = '\u2029' ∨ c = '\u202F' ∨ c = '\u205F' ∨
  c = '\u3000' ∨ c = '\uFEFF'

/-- JS `line.trim() === ""`: every character of the line is in the
whitespace set of `String.prototype.trim`. -/
def isBlank (l : List Char) : Bool := l.all isJsWhitespace

/-- The per-line classification chain of markdown.ts lines 64–87, in source
order (h1, h2, h3, bullet, blank, plain).  Heading remainders become a single
unstyled run; bullet remainders and plain lines go through `parseInline`. -/
def classifyLine (line : List Char) : DocSegment :=
  match h1Match line with
  | some r => ⟨[⟨r, none, none⟩], .heading1, false⟩
  | none =>
  match h2Match line with
  | some r => ⟨[⟨r, none, none⟩], .heading2, false⟩
  | none =>
  match h3Match line with
  | some r => ⟨[⟨r, none, none⟩], .heading3, false⟩
  | none =>
  match bulletMatch line with
  | some r => ⟨parseInlineL r [], .normalText, true⟩
  | none =>
  if isBlank line then ⟨[⟨[], none, none⟩], .normalText, false⟩
  else ⟨parseInlineL line [], .normalText, false⟩

/-- Concatenation of the texts of a run list (`inlines.map(i => i.text).join("")`). -/
def concatTexts (runs : List InlineSegment) : List Char :=
  (runs.map (fun r => r.text)).flatten

/-- Rendered text of a segment (markdown.ts line 104):
`segment.inlines.map(i => i.text).join("") + "\n"`. -/
def segText (seg : DocSegment) : List Char :=
  concatTexts seg.inlines ++ ['\n']

/-- The paragraph-style/bullet range pushed for a segment (markdown.ts lines
110–117): pushed when the style is not NORMAL_TEXT or the segment is a bullet;
`paragraphStyle` is `undefined` for bullets, the segment's style otherwise. -/
def segRange (idx : Nat) (seg : DocSegment) : List StyleRange :=
  if seg.style ≠ .normalText ∨ seg.bullet then
    [⟨idx, idx + (segText seg).length,
      if seg.bullet then none else some seg.style, none, seg.bullet⟩]
  else []

/-- The inline-style ranges pushed for a segment's runs (markdown.ts lines
119–130): one range per run whose `bold` or `italic` is truthy; the cursor
advances by every run's text length. -/
def inlineRanges : Nat → List InlineSegment → List StyleRange
  | _, [] => []
  | idx, inl :: rest =>
    if truthy inl.bold || truthy inl.italic then
      ⟨idx, idx + inl.text.length, none, some ⟨inl.bold, inl.italic⟩, false⟩
        :: inlineRanges (idx + inl.text.length) rest
    else inlineRanges (idx + inl.text.length) rest

/-- All ranges recorded for one segment, in push order (paragraph/bullet
range first, then the inline ranges). -/
def segRanges (idx : Nat) (seg : DocSegment) : List StyleRange :=
  segRange idx seg ++ inlineRanges idx seg.inlines

/-- The main loop of markdown.ts lines 102–133: builds `fullText` and
`styleRanges`, threading `currentIndex` (which starts at 1). -/
def layout : Nat → List DocSegment → List Char × List StyleRange
  | _, [] => ([], [])
  | idx, seg :: rest =>
    (segText seg ++ (layout (idx + (segText seg).length) rest).1,
     segRanges idx seg ++ (layout (idx + (segText seg).length) rest).2)

/-- The requests emitted for one recorded range (markdown.ts lines 146–173):
three independent checks, for `paragraphStyle` (truthy string), `bullet`
(truthy boolean) and `textStyle` (an object, always truthy when present). -/
def rangeRequests (r : StyleRange) : List Request :=
  (match r.paragraphStyle with
   | some p => [.updateParagraphStyle r.startIndex r.endIndex p]
   | none => []) ++
  (if r.bullet then [.createParagraphBullets r.startIndex r.endIndex] else []) ++
  (match r.textStyle with
   | some ts => [.updateTextStyle r.startIndex r.endIndex ts (tsObjectKeys ts)]
   | none => [])

/-- The classified segments of an input (markdown.ts lines 61–87). -/
def segmentsOf (markdown : String) : List DocSegment :=
  (splitLines markdown.data).map classifyLine

/-- The `fullText` buffer accumulated by the main loop. -/
def fullTextOf (markdown : String) : List Char :=
  (layout 1 (segmentsOf markdown)).1

/-- The `styleRanges` array accumulated by the main loop. -/
def styleRangesOf (markdown : String) : List StyleRange :=
  (layout 1 (segmentsOf markdown)).2

/-- markdown.ts `markdownToDocRequests` (line 60): the insertText request at
index 1, pushed only when `fullText` is non-empty (truthy), followed by the
requests of each recorded range in order. -/
def markdownToDocRequests (markdown : String) : List Request :=
  (if fullTextOf markdown = [] then [] else [.insertText 1 (fullTextOf markdown)]) ++
  ((styleRangesOf markdown).map rangeRequests).flatten


mutual

/-- Modelled from the spec (§3, §4.2): a line's visible characters — the line
with every style-marker occurrence removed, where markers are recognized by
the same left-to-right scan as the inline parser.  This is the comparison
definition for the run-concatenation invariant; it forgets the run structure
and the style flags and keeps only the characters. -/
def visibleChars : List Char → List Char
  | [] => []
  | '*' :: '*' :: rest => boldVisible rest
  | c :: rest =>
    if c = '*' then italicVisible rest
    else if c = btick then codeVisible rest
    else c :: visibleChars rest
termination_by structural l => l

/-- Visible characters inside a bold span: everything up to the closing `**`. -/
def boldVisible : List Char → List Char
  | [] => []
  | '*' :: '*' :: rest => visibleChars rest
  | c :: rest => c :: boldVisible rest
termination_by structural l => l

/-- Visible characters inside an italic span: everything up to the closing `*`. -/
def italicVisible : List Char → List Char
  | [] => []
  | c :: rest => if c = '*' then visibleChars rest else c :: italicVisible rest
termination_by structural l => l

/-- Visible characters inside a code span: everything up to the closing backtick. -/
def codeVisible : List Char → List Char
  | [] => []
  | c :: rest => if c = btick then visibleChars rest else c :: codeVisible rest
termination_by structural l => l

end


/-! ### Basic lemmas about run concatenation -/

theorem concatTexts_nil : concatTexts [] = [] := rfl

theorem concatTexts_cons (r : InlineSegment) (rs : List InlineSegment) :
    concatTexts (r :: rs) = r.text ++ concatTexts rs := by
  simp [concatTexts]

theorem concatTexts_append (a b : List InlineSegment) :
    concatTexts (a ++ b) = concatTexts a ++ concatTexts b := by
  simp [concatTexts]

theorem concatTexts_flushAcc (cur : List Char) :
    concatTexts (flushAcc cur) = cur := by
  unfold flushAcc
  split
  · simp_all [concatTexts]
  · simp [concatTexts]

/-! ### The scanner loses exactly the style markers

Concatenating the texts of the runs produced by the inline scanner yields the
input's visible characters: the simulation between each loop of `parseInline`
and the corresponding case of `visibleChars`. -/

mutual

theorem concat_parseInlineL : ∀ (l cur : List Char),
    concatTexts (parseInlineL l cur) = cur ++ visibleChars l
  | [], cur => by
    simp [parseInlineL, visibleChars, concatTexts_flushAcc]
  | c :: rest, cur => by
    by_cases h1 : c = '*'
    · subst h1
      match rest with
      | [] =>
        simp [parseInlineL, visibleChars, italicVisible, parseItalicRun,
          concatTexts_append, concatTexts_flushAcc, concatTexts_cons, concatTexts_nil]
      | d :: r2 =>
        by_cases h2 : d = '*'
        · subst h2
          rw [show parseInlineL ('*' :: '*' :: r2) cur
              = flushAcc cur ++ parseBoldRun r2 [] from by simp [parseInlineL]]
          rw [show visibleChars ('*' :: '*' :: r2) = boldVisible r2 from by
            simp [visibleChars]]
          simp [concatTexts_append, concatTexts_flushAcc,
            concat_parseBoldRun r2 []]
        · rw [show parseInlineL ('*' :: d :: r2) cur
              = flushAcc cur ++ parseItalicRun (d :: r2) [] from by
            simp [parseInlineL, h2]]
          rw [show visibleChars ('*' :: d :: r2) = italicVisible (d :: r2) from by
            simp [visibleChars, h2]]
          simp [concatTexts_append, concatTexts_flushAcc,
            concat_parseItalicRun (d :: r2) []]
    · by_cases h2 : c = btick
      · subst h2
        rw [show parseInlineL (btick :: rest) cur
            = flushAcc cur ++ parseCodeRun rest [] from by
          simp [parseInlineL, h1]]
        rw [show visibleChars (btick :: rest) = codeVisible rest from by
          simp [visibleChars, h1]]
        simp [concatTexts_append, concatTexts_flushAcc,
          concat_parseCodeRun rest []]
      · rw [show parseInlineL (c :: rest) cur = parseInlineL rest (cur ++ [c]) from by
          simp [parseInlineL, h1, h2]]
        rw [concat_parseInlineL rest (cur ++ [c])]
        simp [visibleChars, h1, h2]
termination_by structural l _ => l

theorem concat_parseBoldRun : ∀ (l acc : List Char),
    concatTexts (parseBoldRun l acc) = acc ++ boldVisible l
  | [], acc => by
    simp [parseBoldRun, boldVisible, concatTexts_cons, concatTexts_nil]
  | c :: rest, acc => by
    by_cases h1 : c = '*'
    · subst h1
      match rest with
      | [] =>
        simp [parseBoldRun, boldVisible, concatTexts_cons, concatTexts_nil]
      | d :: r2 =>
        by_cases h2 : d = '*'
        · subst h2
          rw [show parseBoldRun ('*' :: '*' :: r2) acc
              = ⟨acc, some true, none⟩ :: parseInlineL r2 [] from by simp [parseBoldRun]]
          rw [show boldVisible ('*' :: '*' :: r2) = visibleChars r2 from by
            simp [boldVisible]]
          simp [concatTexts_cons, concat_parseInlineL r2 []]
        · rw [show parseBoldRun ('*' :: d :: r2) acc
              = parseBoldRun (d :: r2) (acc ++ ['*']) from by simp [parseBoldRun, h2]]
          rw [concat_parseBoldRun (d :: r2) (acc ++ ['*'])]
          simp [boldVisible, h2]
    · rw [show parseBoldRun (c :: rest) acc = parseBoldRun rest (acc ++ [c]) from by
        simp [parseBoldRun, h1]]
      rw [concat_parseBoldRun rest (acc ++ [c])]
      simp [boldVisible, h1]
termination_by structural l _ => l

theorem concat_parseItalicRun : ∀ (l acc : List Char),
    concatTexts (parseItalicRun l acc) = acc ++ italicVisible l
  | [], acc => by
    simp [parseItalicRun, italicVisible, concatTexts_cons, concatTexts_nil]
  | c :: rest, acc => by
    by_cases h1 : c = '*'
    · subst h1
      rw [show parseItalicRun ('*' :: rest) acc
          = ⟨acc, none, some true⟩ :: parseInlineL rest [] from by simp [parseItalicRun]]
      rw [show italicVisible ('*' :: rest) = visibleChars rest from by
        simp [italicVisible]]
      simp [concatTexts_cons, concat_parseInlineL rest []]
    · rw [show parseItalicRun (c :: rest) acc = parseItalicRun rest (acc ++ [c]) from by
        simp [parseItalicRun, h1]]
      rw [concat_parseItalicRun rest (acc ++ [c])]
      simp [italicVisible, h1]
termination_by structural l _ => l

theorem concat_parseCodeRun : ∀ (l acc : List Char),
    concatTexts (parseCodeRun l acc) = acc ++ codeVisible l
  | [], acc => by
    simp [parseCodeRun, codeVisible, concatTexts_cons, concatTexts_nil]
  | c :: rest, acc => by
    by_cases h1 : c = btick
    · subst h1
      rw [show parseCodeRun (btick :: rest) acc
          = ⟨acc, none, some true⟩ :: parseInlineL rest [] from by simp [parseCodeRun]]
      rw [show codeVisible (btick :: rest) = visibleChars rest from by
        simp [codeVisible]]
      simp [concatTexts_cons, concat_parseInlineL rest []]
    · rw [show parseCodeRun (c :: rest) acc = parseCodeRun rest (acc ++ [c]) from by
        simp [parseCodeRun, h1]]
      rw [concat_parseCodeRun rest (acc ++ [c])]
      simp [codeVisible, h1]
termination_by structural l _ => l

end

/-- The headline form of the simulation: the runs of `parseInline`
concatenate to the input's visible characters. -/
theorem concat_parseInline (text : String) :
    concatTexts (parseInline text) = visibleChars text.data := by
  simpa using concat_parseInlineL text.data []

/-! ### Shape of the runs the scanner can produce

Every run is plain (`bold` and `italic` both absent), bold-only
(`bold: true`), or italic-only (`italic: true`); `false` is never stored and
the two flags are never set together. -/

/-- The three run shapes `parseInline` can emit. -/
def goodRun (r : InlineSegment) : Prop :=
  (r.bold = none ∧ r.italic = none) ∨
  (r.bold = some true ∧ r.italic = none) ∨
  (r.bold = none ∧ r.italic = some true)

theorem goodRun_flushAcc (cur : List Char) :
    ∀ r ∈ flushAcc cur, goodRun r := by
  unfold flushAcc
  split
  · simp
  · simp [goodRun]

mutual

theorem goodRun_parseInlineL : ∀ (l cur : List Char),
    ∀ r ∈ parseInlineL l cur, goodRun r
  | [], cur => by
    simpa [parseInlineL] using goodRun_flushAcc cur
  | c :: rest, cur => by
    by_cases h1 : c = '*'
    · subst h1
      match rest with
      | [] =>
        intro r hr
        rw [show parseInlineL ['*'] cur = flushAcc cur ++ parseItalicRun [] [] from by
          simp [parseInlineL]] at hr
        rcases List.mem_append.1 hr with h | h
        · exact goodRun_flushAcc cur r h
        · simp [parseItalicRun] at h
          simp [h, goodRun]
      | d :: r2 =>
        by_cases h2 : d = '*'
        · subst h2
          intro r hr
          rw [show parseInlineL ('*' :: '*' :: r2) cur
              = flushAcc cur ++ parseBoldRun r2 [] from by simp [parseInlineL]] at hr
          rcases List.mem_append.1 hr with h | h
          · exact goodRun_flushAcc cur r h
          · exact goodRun_parseBoldRun r2 [] r h
        · intro r hr
          rw [show parseInlineL ('*' :: d :: r2) cur
              = flushAcc cur ++ parseItalicRun (d :: r2) [] from by
            simp [parseInlineL, h2]] at hr
          rcases List.mem_append.1 hr with h | h
          · exact goodRun_flushAcc cur r h
          · exact goodRun_parseItalicRun (d :: r2) [] r h
    · by_cases h2 : c = btick
      · subst h2
        intro r hr
        rw [show parseInlineL (btick :: rest) cur
            = flushAcc cur ++ parseCodeRun rest [] from by simp [parseInlineL, h1]] at hr
        rcases List.mem_append.1 hr with h | h
        · exact goodRun_flushAcc cur r h
        · exact goodRun_parseCodeRun rest [] r h
      · intro r hr
        rw [show parseInlineL (c :: rest) cur = parseInlineL rest (cur ++ [c]) from by
          simp [parseInlineL, h1, h2]] at hr
        exact goodRun_parseInlineL rest (cur ++ [c]) r hr
termination_by structural l _ => l

theorem goodRun_parseBoldRun : ∀ (l acc : List Char),
    ∀ r ∈ parseBoldRun l acc, goodRun r
  | [], acc => by
    simp [parseBoldRun, goodRun]
  | c :: rest, acc => by
    by_cases h1 : c = '*'
    · subst h1
      match rest with
      | [] =>
        simp [parseBoldRun, goodRun]
      | d :: r2 =>
        by_cases h2 : d = '*'
        · subst h2
          intro r hr
          rw [show parseBoldRun ('*' :: '*' :: r2) acc
              = ⟨acc, some true, none⟩ :: parseInlineL r2 [] from by
            simp [parseBoldRun]] at hr
          rcases List.mem_cons.1 hr with h | h
          · simp [h, goodRun]
          · exact goodRun_parseInlineL r2 [] r h
        · intro r hr
          rw [show parseBoldRun ('*' :: d :: r2) acc
              = parseBoldRun (d :: r2) (acc ++ ['*']) from by
            simp [parseBoldRun, h2]] at hr
          exact goodRun_parseBoldRun (d :: r2) (acc ++ ['*']) r hr
    · intro r hr
      rw [show parseBoldRun (c :: rest) acc = parseBoldRun rest (acc ++ [c]) from by
        simp [parseBoldRun, h1]] at hr
      exact goodRun_parseBoldRun rest (acc ++ [c]) r hr
termination_by structural l _ => l

theorem goodRun_parseItalicRun : ∀ (l acc : List Char),
    ∀ r ∈ parseItalicRun l acc, goodRun r
  | [], acc => by
    simp [parseItalicRun, goodRun]
  | c :: rest, acc => by
    by_cases h1 : c = '*'
    · subst h1
      intro r hr
      rw [show parseItalicRun ('*' :: rest) acc
          = ⟨acc, none, some true⟩ :: parseInlineL rest [] from by
        simp [parseItalicRun]] at hr
      rcases List.mem_cons.1 hr with h | h
      · simp [h, goodRun]
      · exact goodRun_parseInlineL rest [] r h
    · intro r hr
      rw [show parseItalicRun (c :: rest) acc = parseItalicRun rest (acc ++ [c]) from by
        simp [parseItalicRun, h1]] at hr
      exact goodRun_parseItalicRun rest (acc ++ [c]) r hr
termination_by structural l _ => l

theorem goodRun_parseCodeRun : ∀ (l acc : List Char),
    ∀ r ∈ parseCodeRun l acc, goodRun r
  | [], acc => by
    simp [parseCodeRun, goodRun]
  | c :: rest, acc => by
    by_cases h1 : c = btick
    · subst h1
      intro r hr
      rw [show parseCodeRun (btick :: rest) acc
          = ⟨acc, none, some true⟩ :: parseInlineL rest [] from by
        simp [parseCodeRun]] at hr
      rcases List.mem_cons.1 hr with h | h
      · simp [h, goodRun]
      · exact goodRun_parseInlineL rest [] r h
    · intro r hr
      rw [show parseCodeRun (c :: rest) acc = parseCodeRun rest (acc ++ [c]) from by
        simp [parseCodeRun, h1]] at hr
      exact goodRun_parseCodeRun rest (acc ++ [c]) r hr
termination_by structural l _ => l

end

/-- Every run of a classified line is plain, bold-only or italic-only. -/
theorem goodRun_classifyLine (line : List Char) :
    ∀ r ∈ (classifyLine line).inlines, goodRun r := by
  unfold classifyLine
  split
  · simp [goodRun]
  split
  · simp [goodRun]
  split
  · simp [goodRun]
  split
  · exact goodRun_parseInlineL _ []
  split
  · simp [goodRun]
  · exact goodRun_parseInlineL _ []

/-! ### Line splitting -/

theorem splitLines_ne_nil (l : List Char) : splitLines l ≠ [] := by
  induction l with
  | nil => simp [splitLines]
  | cons c rest ih =>
    unfold splitLines
    split
    · simp
    · match h : splitLines rest with
      | [] => exact absurd h ih
      | p :: ps => simp [h]

theorem splitLines_length (l : List Char) :
    (splitLines l).length = l.count '\n' + 1 := by
  induction l with
  | nil => simp [splitLines]
  | cons c rest ih =>
    unfold splitLines
    split
    · rename_i hc
      simp [hc, List.count_cons, ih]
    · rename_i hc
      match h : splitLines rest with
      | [] => exact absurd h (splitLines_ne_nil rest)
      | p :: ps =>
        rw [h] at ih
        simp only [List.length_cons] at ih ⊢
        simp [List.count_cons, hc, ih]

theorem splitLines_no_newline (l : List Char) :
    ∀ p ∈ splitLines l, '\n' ∉ p := by
  induction l with
  | nil => simp [splitLines]
  | cons c rest ih =>
    unfold splitLines
    split
    · intro p hp
      rcases List.mem_cons.1 hp with h | h
      · simp [h]
      · exact ih p h
    · rename_i hc
      match h : splitLines rest with
      | [] => exact absurd h (splitLines_ne_nil rest)
      | p :: ps =>
        intro q hq
        rcases List.mem_cons.1 hq with hq' | hq'
        · subst hq'
          intro hmem
          rcases List.mem_cons.1 hmem with h' | h'
          · exact hc h'.symm
          · exact ih p (h ▸ List.mem_cons_self p ps) h'
        · exact ih q (h ▸ List.mem_cons_of_mem p hq')

/-! ### The scanner emits only characters of its input -/

mutual

theorem subset_visibleChars : ∀ (l : List Char), ∀ a ∈ visibleChars l, a ∈ l
  | [] => by simp [visibleChars]
  | c :: rest => by
    by_cases h1 : c = '*'
    · subst h1
      match rest with
      | [] =>
        simp [visibleChars, italicVisible]
      | d :: r2 =>
        by_cases h2 : d = '*'
        · subst h2
          rw [show visibleChars ('*' :: '*' :: r2) = boldVisible r2 from by
            simp [visibleChars]]
          intro a ha
          exact List.mem_cons_of_mem _ (List.mem_cons_of_mem _ (subset_boldVisible r2 a ha))
        · rw [show visibleChars ('*' :: d :: r2) = italicVisible (d :: r2) from by
            simp [visibleChars, h2]]
          intro a ha
          exact List.mem_cons_of_mem _ (subset_italicVisible (d :: r2) a ha)
    · by_cases h2 : c = btick
      · subst h2
        rw [show visibleChars (btick :: rest) = codeVisible rest from by
          simp [visibleChars, h1]]
        intro a ha
        exact List.mem_cons_of_mem _ (subset_codeVisible rest a ha)
      · rw [show visibleChars (c :: rest) = c :: visibleChars rest from by
          simp [visibleChars, h1, h2]]
        intro a ha
        rcases List.mem_cons.1 ha with h | h
        · simp [h]
        · exact List.mem_cons_of_mem _ (subset_visibleChars rest a h)
termination_by structural l => l

theorem subset_boldVisible : ∀ (l : List Char), ∀ a ∈ boldVisible l, a ∈ l
  | [] => by simp [boldVisible]
  | c :: rest => by
    by_cases h1 : c = '*'
    · subst h1
      match rest with
      | [] => simp [boldVisible]
      | d :: r2 =>
        by_cases h2 : d = '*'
        · subst h2
          rw [show boldVisible ('*' :: '*' :: r2) = visibleChars r2 from by
            simp [boldVisible]]
          intro a ha
          exact List.mem_cons_of_mem _ (List.mem_cons_of_mem _ (subset_visibleChars r2 a ha))
        · rw [show boldVisible ('*' :: d :: r2) = '*' :: boldVisible (d :: r2) from by
            simp [boldVisible, h2]]
          intro a ha
          rcases List.mem_cons.1 ha with h | h
          · simp [h]
          · exact List.mem_cons_of_mem _ (subset_boldVisible (d :: r2) a h)
    · rw [show boldVisible (c :: rest) = c :: boldVisible rest from by
        simp [boldVisible, h1]]
      intro a ha
      rcases List.mem_cons.1 ha with h | h
      · simp [h]
      · exact List.mem_cons_of_mem _ (subset_boldVisible rest a h)
termination_by structural l => l

theorem subset_italicVisible : ∀ (l : List Char), ∀ a ∈ italicVisible l, a ∈ l
  | [] => by simp [italicVisible]
  | c :: rest => by
    by_cases h1 : c = '*'
    · subst h1
      rw [show italicVisible ('*' :: rest) = visibleChars rest from by
        simp [italicVisible]]
      intro a ha
      exact List.mem_cons_of_mem _ (subset_visibleChars rest a ha)
    · rw [show italicVisible (c :: rest) = c :: italicVisible rest from by
        simp [italicVisible, h1]]
      intro a ha
      rcases List.mem_cons.1 ha with h | h
      · simp [h]
      · exact List.mem_cons_of_mem _ (subset_italicVisible rest a h)
termination_by structural l => l

theorem subset_codeVisible : ∀ (l : List Char), ∀ a ∈ codeVisible l, a ∈ l
  | [] => by simp [codeVisible]
  | c :: rest => by
    by_cases h1 : c = btick
    · subst h1
      rw [show codeVisible (btick :: rest) = visibleChars rest from by
        simp [codeVisible]]
      intro a ha
      exact List.mem_cons_of_mem _ (subset_visibleChars rest a ha)
    · rw [show codeVisible (c :: rest) = c :: codeVisible rest from by
        simp [codeVisible, h1]]
      intro a ha
      rcases List.mem_cons.1 ha with h | h
      · simp [h]
      · exact List.mem_cons_of_mem _ (subset_codeVisible rest a h)
termination_by structural l => l

end

/-! ### Inversion of the line matchers -/

theorem dotCapture_subset (l : List Char) : ∀ a ∈ dotCapture l, a ∈ l := by
  unfold dotCapture
  induction l with
  | nil => simp
  | cons c rest ih =>
    intro a ha
    rw [List.takeWhile_cons] at ha
    split at ha
    · rcases List.mem_cons.1 ha with h | h
      · simp [h]
      · exact List.mem_cons_of_mem c (ih a h)
    · cases ha

theorem h1Match_eq_some {l r : List Char} (h : h1Match l = some r) :
    ∃ rest, l = '#' :: ' ' :: rest ∧ r = dotCapture rest ∧ r ≠ [] := by
  match l with
  | [] => simp [h1Match] at h
  | [c] => simp [h1Match] at h
  | c1 :: c2 :: rest =>
    simp only [h1Match] at h
    split at h
    · rename_i hcond
      injection h with h
      subst h
      exact ⟨rest, by rw [hcond.1, hcond.2.1], rfl, hcond.2.2⟩
    · simp at h

theorem h2Match_eq_some {l r : List Char} (h : h2Match l = some r) :
    ∃ rest, l = '#' :: '#' :: ' ' :: rest ∧ r = dotCapture rest ∧ r ≠ [] := by
  match l with
  | [] => simp [h2Match] at h
  | [c] => simp [h2Match] at h
  | [c1, c2] => simp [h2Match] at h
  | c1 :: c2 :: c3 :: rest =>
    simp only [h2Match] at h
    split at h
    · rename_i hcond
      injection h with h
      subst h
      exact ⟨rest, by rw [hcond.1, hcond.2.1, hcond.2.2.1], rfl, hcond.2.2.2⟩
    · simp at h

theorem h3Match_eq_some {l r : List Char} (h : h3Match l = some r) :
    ∃ rest, l = '#' :: '#' :: '#' :: ' ' :: rest ∧ r = dotCapture rest ∧ r ≠ [] := by
  match l with
  | [] => simp [h3Match] at h
  | [c] => simp [h3Match] at h
  | [c1, c2] => simp [h3Match] at h
  | [c1, c2, c3] => simp [h3Match] at h
  | c1 :: c2 :: c3 :: c4 :: rest =>
    simp only [h3Match] at h
    split at h
    · rename_i hcond
      injection h with h
      subst h
      exact ⟨rest, by rw [hcond.1, hcond.2.1, hcond.2.2.1, hcond.2.2.2.1], rfl,
        hcond.2.2.2.2⟩
    · simp at h

theorem bulletMatch_eq_some {l r : List Char} (h : bulletMatch l = some r) :
    ∃ c1 rest, (c1 = '-' ∨ c1 = '*') ∧ l = c1 :: ' ' :: rest ∧
      r = dotCapture rest ∧ r ≠ [] := by
  match l with
  | [] => simp [bulletMatch] at h
  | [c] => simp [bulletMatch] at h
  | c1 :: c2 :: rest =>
    simp only [bulletMatch] at h
    split at h
    · rename_i hcond
      injection h with h
      subst h
      exact ⟨c1, rest, hcond.1, by rw [hcond.2.1], rfl, hcond.2.2⟩
    · simp at h

/-! ### Classifier-level consequences -/

/-- The concatenated run text of a classified line only contains characters
of the line itself. -/
theorem concat_classifyLine_subset (line : List Char) :
    ∀ a ∈ concatTexts (classifyLine line).inlines, a ∈ line := by
  unfold classifyLine
  split
  · rename_i r hr
    obtain ⟨rest, hline, hcap, -⟩ := h1Match_eq_some hr
    subst hline
    intro a ha
    rw [concatTexts_cons, concatTexts_nil, List.append_nil, hcap] at ha
    exact List.mem_cons_of_mem _ (List.mem_cons_of_mem _ (dotCapture_subset rest a ha))
  split
  · rename_i r hr
    obtain ⟨rest, hline, hcap, -⟩ := h2Match_eq_some hr
    subst hline
    intro a ha
    rw [concatTexts_cons, concatTexts_nil, List.append_nil, hcap] at ha
    exact List.mem_cons_of_mem _ (List.mem_cons_of_mem _
      (List.mem_cons_of_mem _ (dotCapture_subset rest a ha)))
  split
  · rename_i r hr
    obtain ⟨rest, hline, hcap, -⟩ := h3Match_eq_some hr
    subst hline
    intro a ha
    rw [concatTexts_cons, concatTexts_nil, List.append_nil, hcap] at ha
    exact List.mem_cons_of_mem _ (List.mem_cons_of_mem _
      (List.mem_cons_of_mem _ (List.mem_cons_of_mem _ (dotCapture_subset rest a ha))))
  split
  · rename_i r hr
    obtain ⟨c1, rest, -, hline, hcap, -⟩ := bulletMatch_eq_some hr
    subst hline
    intro a ha
    rw [show concatTexts (parseInlineL r []) = visibleChars r from by
      simpa using concat_parseInlineL r []] at ha
    have ha2 : a ∈ r := subset_visibleChars r a ha
    rw [hcap] at ha2
    exact List.mem_cons_of_mem _ (List.mem_cons_of_mem _ (dotCapture_subset rest a ha2))
  split
  · simp [concatTexts]
  · intro a ha
    rw [show concatTexts (parseInlineL line []) = visibleChars line from by
      simpa using concat_parseInlineL line []] at ha
    exact subset_visibleChars line a ha

/-- A segment's rendered text is never empty (it ends with the newline). -/
theorem segText_ne_nil (seg : DocSegment) : segText seg ≠ [] := by
  simp [segText]

/-- A segment's rendered text has positive length. -/
theorem segText_length_pos (seg : DocSegment) : 0 < (segText seg).length := by
  simp [segText]

/-- If a line contains no newline, the rendered text of its classified
segment contains exactly one newline (the appended one). -/
theorem segText_count_newline (line : List Char) (h : '\n' ∉ line) :
    (segText (classifyLine line)).count '\n' = 1 := by
  have hz : (concatTexts (classifyLine line).inlines).count '\n' = 0 := by
    rw [List.count_eq_zero]
    intro hmem
    exact h (concat_classifyLine_subset line '\n' hmem)
  simp [segText, List.count_append, hz]

/-! ### The layout loop -/

/-- The text side of `layout` does not depend on the running offset: it is
the concatenation of every segment's rendered text. -/
theorem layout_fst (idx : Nat) (segs : List DocSegment) :
    (layout idx segs).1 = (segs.map segText).flatten := by
  induction segs generalizing idx with
  | nil => simp [layout]
  | cons seg rest ih => simp [layout, ih]

/-- Every recorded range comes from `segRanges` of one of the segments. -/
theorem layout_snd_mem (idx : Nat) (segs : List DocSegment) :
    ∀ rng ∈ (layout idx segs).2, ∃ j seg, seg ∈ segs ∧ rng ∈ segRanges j seg := by
  induction segs generalizing idx with
  | nil => simp [layout]
  | cons seg rest ih =>
    intro rng hrng
    rw [show (layout idx (seg :: rest)).2
        = segRanges idx seg ++ (layout (idx + (segText seg).length) rest).2 from by
      simp [layout]] at hrng
    rcases List.mem_append.1 hrng with h | h
    · exact ⟨idx, seg, List.mem_cons_self seg rest, h⟩
    · obtain ⟨j, seg', hseg', hmem⟩ := ih (idx + (segText seg).length) rng h
      exact ⟨j, seg', List.mem_cons_of_mem seg hseg', hmem⟩

/-! ### Facts about recorded ranges -/

/-- The paragraph/bullet range of a segment (when recorded) spans the whole
rendered text: it is strictly non-empty and carries no text style. -/
theorem segRange_facts (idx : Nat) (seg : DocSegment) :
    ∀ rng ∈ segRange idx seg,
      rng.startIndex < rng.endIndex ∧ rng.textStyle = none ∧
      rng.endIndex = rng.startIndex + (segText seg).length := by
  unfold segRange
  split
  · intro rng hrng
    rcases List.mem_singleton.1 hrng with rfl
    refine ⟨?_, rfl, rfl⟩
    simpa using segText_length_pos seg
  · simp

/-- Every inline range records the style pair of a run whose `bold` or
`italic` is truthy, and never shrinks below its start. -/
theorem inlineRanges_facts (idx : Nat) (inls : List InlineSegment)
    (hgood : ∀ r ∈ inls, goodRun r) :
    ∀ rng ∈ inlineRanges idx inls,
      rng.startIndex ≤ rng.endIndex ∧ rng.paragraphStyle = none ∧
      rng.bullet = false ∧
      (rng.textStyle = some ⟨some true, none⟩ ∨ rng.textStyle = some ⟨none, some true⟩) := by
  induction inls generalizing idx with
  | nil => simp [inlineRanges]
  | cons inl rest ih =>
    intro rng hrng
    unfold inlineRanges at hrng
    split at hrng
    · rename_i hguard
      rcases List.mem_cons.1 hrng with h | h
      · subst h
        refine ⟨Nat.le_add_right _ _, rfl, rfl, ?_⟩
        rcases hgood inl (List.mem_cons_self inl rest) with ⟨hb, hi⟩ | ⟨hb, hi⟩ | ⟨hb, hi⟩
        · rw [hb, hi] at hguard
          simp [truthy] at hguard
        · left; simp [hb, hi]
        · right; simp [hb, hi]
      · exact ih _ (fun r hr => hgood r (List.mem_cons_of_mem inl hr)) rng h
    · exact ih _ (fun r hr => hgood r (List.mem_cons_of_mem inl hr)) rng
        (by simpa using hrng)

/-! ### Requests emitted for a range -/

/-- Recognizer for the `insertText` request shape. -/
def Request.isInsert : Request → Bool
  | .insertText _ _ => true
  | _ => false

/-- Recognizer for an `updateParagraphStyle` request over a given range. -/
def Request.isParaStyleOver (r : Request) (s e : Nat) : Bool :=
  match r with
  | .updateParagraphStyle s' e' _ => s = s' ∧ e = e'
  | _ => false

theorem rangeRequests_no_insert (rng : StyleRange) :
    ∀ req ∈ rangeRequests rng, req.isInsert = false := by
  unfold rangeRequests
  intro req hreq
  rcases List.mem_append.1 hreq with h | h
  · rcases List.mem_append.1 h with h' | h'
    · split at h'
      · rcases List.mem_singleton.1 h' with rfl
        rfl
      · simp at h'
    · split at h'
      · rcases List.mem_singleton.1 h' with rfl
        rfl
      · simp at h'
  · split at h
    · rcases List.mem_singleton.1 h with rfl
      rfl
    · simp at h

theorem updateTextStyle_mem_rangeRequests (rng : StyleRange)
    (a b : Nat) (ts : TextStyle) (fs : List String)
    (h : Request.updateTextStyle a b ts fs ∈ rangeRequests rng) :
    rng.textStyle = some ts ∧ fs = tsObjectKeys ts ∧
    a = rng.startIndex ∧ b = rng.endIndex := by
  unfold rangeRequests at h
  rcases List.mem_append.1 h with h | h
  · rcases List.mem_append.1 h with h' | h'
    · split at h'
      · rcases List.mem_singleton.1 h' with h''
        cases h''
      · simp at h'
    · split at h'
      · rcases List.mem_singleton.1 h' with h''
        cases h''
      · simp at h'
  · split at h
    · rename_i ts' hts
      rcases List.mem_singleton.1 h with h''
      injection h'' with h1 h2 h3 h4
      subst h1; subst h2; subst h3; subst h4
      exact ⟨hts, rfl, rfl, rfl⟩
    · simp at h

/-! ### Facts about all recorded ranges of an input -/

theorem styleRangesOf_facts (s : String) :
    ∀ rng ∈ styleRangesOf s,
      rng.startIndex ≤ rng.endIndex ∧
      (rng.textStyle = none → rng.startIndex < rng.endIndex) ∧
      (∀ ts, rng.textStyle = some ts →
        ts = ⟨some true, none⟩ ∨ ts = ⟨none, some true⟩) := by
  intro rng hrng
  obtain ⟨j, seg, hseg, hmem⟩ := layout_snd_mem 1 (segmentsOf s) rng hrng
  obtain ⟨line, -, rfl⟩ := List.mem_map.1 hseg
  rcases List.mem_append.1 hmem with h | h
  · obtain ⟨hlt, hts, -⟩ := segRange_facts j (classifyLine line) rng h
    refine ⟨Nat.le_of_lt hlt, fun _ => hlt, fun ts hts' => ?_⟩
    rw [hts] at hts'
    cases hts'
  · obtain ⟨hle, -, -, hts⟩ :=
      inlineRanges_facts j (classifyLine line).inlines (goodRun_classifyLine line) rng h
    refine ⟨hle, fun hnone => ?_, fun ts hts' => ?_⟩
    · rcases hts with h' | h' <;> rw [h'] at hnone <;> cases hnone
    · rcases hts with h' | h' <;> rw [h'] at hts' <;> injection hts' with h'' <;>
        [left; right] <;> exact h''.symm

/-! ### Facts about the full text buffer -/

theorem fullTextOf_eq (s : String) :
    fullTextOf s = ((segmentsOf s).map segText).flatten := by
  unfold fullTextOf
  exact layout_fst 1 (segmentsOf s)

theorem segmentsOf_ne_nil (s : String) : segmentsOf s ≠ [] := by
  unfold segmentsOf
  intro h
  exact splitLines_ne_nil s.data (List.map_eq_nil_iff.1 h)

theorem flatten_segTexts_ends_newline :
    ∀ segs : List DocSegment, segs ≠ [] →
      ∃ t, (segs.map segText).flatten = t ++ ['\n'] := by
  intro segs
  induction segs with
  | nil => intro h; exact absurd rfl h
  | cons seg rest ih =>
    intro _
    match rest with
    | [] =>
      refine ⟨concatTexts seg.inlines, ?_⟩
      simp [segText]
    | seg2 :: rest2 =>
      obtain ⟨t, ht⟩ := ih (by simp)
      refine ⟨segText seg ++ t, ?_⟩
      simp only [List.map_cons, List.flatten_cons] at ht ⊢
      rw [ht, List.append_assoc]

theorem fullTextOf_ne_nil (s : String) : fullTextOf s ≠ [] := by
  rw [fullTextOf_eq]
  obtain ⟨t, ht⟩ := flatten_segTexts_ends_newline (segmentsOf s) (segmentsOf_ne_nil s)
  rw [ht]
  simp

theorem fullTextOf_ends_newline (s : String) :
    ∃ t, fullTextOf s = t ++ ['\n'] := by
  rw [fullTextOf_eq]
  exact flatten_segTexts_ends_newline (segmentsOf s) (segmentsOf_ne_nil s)

theorem fullTextOf_count_newline (s : String) :
    (fullTextOf s).count '\n' = (segmentsOf s).length := by
  rw [fullTextOf_eq]
  unfold segmentsOf
  rw [List.map_map]
  have key : ∀ ls : List (List Char), (∀ p ∈ ls, '\n' ∉ p) →
      ((ls.map (segText ∘ classifyLine)).flatten).count '\n' = ls.length := by
    intro ls
    induction ls with
    | nil => simp
    | cons p ps ih =>
      intro hno
      simp only [List.map_cons, List.flatten_cons, List.count_append, List.length_cons]
      rw [ih (fun q hq => hno q (List.mem_cons_of_mem p hq))]
      rw [show (segText ∘ classifyLine) p = segText (classifyLine p) from rfl]
      rw [segText_count_newline p (hno p (List.mem_cons_self p ps))]
      omega
  rw [key (splitLines s.data) (splitLines_no_newline s.data)]
  simp

/-- The full request list always starts with the single insertText request. -/
theorem markdownToDocRequests_eq (s : String) :
    markdownToDocRequests s
      = Request.insertText 1 (fullTextOf s)
        :: ((styleRangesOf s).map rangeRequests).flatten := by
  unfold markdownToDocRequests
  rw [if_neg (fullTextOf_ne_nil s)]
  rfl

/-- Projection used to inspect which `fields` a request names: `some fs` for
an `updateTextStyle` request, `none` for every other request shape. -/
def Request.fieldsNamed : Request → Option (List String)
  | .updateTextStyle _ _ _ fs => some fs
  | _ => none

/-! ## The claims -/

/-- C1 (counterexample): the claim says `markdownToOperations("")` returns an
empty operation list, but on the empty input the buffer is `"\n"` (one empty
line plus the appended newline), which is truthy, so an insertText request is
emitted and the list is not empty. -/
theorem c1_empty_input_counterexample : markdownToDocRequests "" ≠ [] := by decide

/-- C1 (amended): for the empty input the compiler produces a single
empty-paragraph segment and records zero StyledRanges, but the operation list
is not empty: it contains exactly one insertText operation carrying the
buffer `"\n"`. -/
theorem c1_empty_input_amended :
    segmentsOf "" = [⟨[⟨[], none, none⟩], .normalText, false⟩] ∧
    styleRangesOf "" = [] ∧
    markdownToDocRequests "" = [.insertText 1 ['\n']] := by
  refine ⟨by decide, by decide, by decide⟩

/-- C2 (counterexample): the claim says the paragraph-style operation for
`"# Title"` spans `[1,8)`; in fact no request in the output is an
updateParagraphStyle over `[1,8)` (the rendered text `"Title\n"` has length
6, so the range is `[1,7)`). -/
theorem c2_title_counterexample :
    (markdownToDocRequests "# Title").countP (fun r => r.isParaStyleOver 1 8) = 0 := by
  decide

/-- C2 (amended): `markdownToDocRequests "# Title"` yields exactly one
insertText request with text `"Title\n"` and one HEADING_1 paragraph-style
request over the half-open range `[1,7)`. -/
theorem c2_title_amended :
    markdownToDocRequests "# Title"
      = [.insertText 1 "Title\n".data, .updateParagraphStyle 1 7 .heading1] := by
  decide

/-- C3 (counterexample): the claim says every recorded StyledRange satisfies
start < end, but the input `"**"` produces an empty bold run whose inline
range is `[1,1)` — the scanner pushes a styled run even when its text is
empty, and the layout loop records a range for any run with a truthy flag. -/
theorem c3_range_counterexample :
    ¬ (∀ rng ∈ styleRangesOf "**", rng.startIndex < rng.endIndex) := by decide

/-- C3 (amended): every recorded StyledRange satisfies start ≤ end, and every
paragraph/bullet range (the ones with no text style) satisfies start < end
because it spans its whole line including the trailing newline; only
inline-style ranges can be empty, when a style marker encloses no text. -/
theorem c3_range_amended (s : String) :
    ∀ rng ∈ styleRangesOf s,
      rng.startIndex ≤ rng.endIndex ∧
      (rng.textStyle = none → rng.startIndex < rng.endIndex) := by
  intro rng hrng
  obtain ⟨h1, h2, -⟩ := styleRangesOf_facts s rng hrng
  exact ⟨h1, h2⟩

/-- C3 (witness): the amended statement instantiated at the paragraph range
recorded for `"# T"`, the range `[1,3)` with style HEADING_1. -/
theorem c3_range_amended_witness :
    (⟨1, 3, some .heading1, none, false⟩ : StyleRange) ∈ styleRangesOf "# T" ∧
    ((1 : Nat) ≤ 3 ∧ ((none : Option TextStyle) = none → (1 : Nat) < 3)) :=
  ⟨by decide, c3_range_amended "# T" ⟨1, 3, some .heading1, none, false⟩ (by decide)⟩

/-- C4 (counterexample): the claim says the setTextStyle operation for a
bold-only run names only `bold` in its fields; in fact for `"**b**"` the
output's single updateTextStyle request names both `bold` and `italic`
(the JS object literal defines both properties even when one is undefined,
so `Object.keys` always yields both). -/
theorem c4_fields_counterexample :
    (markdownToDocRequests "**b**").map Request.fieldsNamed
      = [none, some ["bold", "italic"]] := by
  decide

/-- C4 (amended): every updateTextStyle request names both `bold` and
`italic` in its fields string, whatever flags the run carries; the carried
style values themselves are restricted to the run's flags: bold-only runs
yield `{bold: true, italic: undefined}` and italic-only runs yield
`{bold: undefined, italic: true}`, and these are the only two shapes. -/
theorem c4_fields_amended (s : String) (a b : Nat) (ts : TextStyle) (fs : List String)
    (h : Request.updateTextStyle a b ts fs ∈ markdownToDocRequests s) :
    fs = ["bold", "italic"] ∧
    (ts = ⟨some true, none⟩ ∨ ts = ⟨none, some true⟩) := by
  rw [markdownToDocRequests_eq] at h
  rcases List.mem_cons.1 h with h' | h'
  · cases h'
  · obtain ⟨l, hl, hmem⟩ := List.mem_flatten.1 h'
    obtain ⟨rng, hrng, rfl⟩ := List.mem_map.1 hl
    obtain ⟨hts, hfs, -, -⟩ := updateTextStyle_mem_rangeRequests rng a b ts fs hmem
    obtain ⟨-, -, h3⟩ := styleRangesOf_facts s rng hrng
    exact ⟨hfs, h3 ts hts⟩

/-- C4 (witness): the amended statement instantiated at the italic run of
`"*i*"`, whose updateTextStyle request is over `[1,2)`. -/
theorem c4_fields_amended_witness :
    Request.updateTextStyle 1 2 ⟨none, some true⟩ ["bold", "italic"]
      ∈ markdownToDocRequests "*i*" ∧
    (["bold", "italic"] = ["bold", "italic"] ∧
     ((⟨none, some true⟩ : TextStyle) = ⟨some true, none⟩ ∨
      (⟨none, some true⟩ : TextStyle) = ⟨none, some true⟩)) :=
  ⟨by decide, c4_fields_amended "*i*" 1 2 ⟨none, some true⟩ ["bold", "italic"] (by decide)⟩

/-- C5 (counterexample): the claim says a line beginning with `"# "` is
classified Heading1 even when the remainder is empty, but the regex
`/^# (.+)/` requires a non-empty remainder: the two-character line `"# "`
falls through to a plain paragraph. -/
theorem c5_heading_counterexample :
    "# ".data = ['#', ' '] ∧ (classifyLine "# ".data).style ≠ PStyle.heading1 := by
  decide

/-- C5 (amended): every line of the form `"# " ++ rest` whose remainder
starts with a character the regex's `.` can match (not a line terminator)
is classified as a Heading1 segment whose single unstyled run is the regex
capture: the remainder's longest prefix free of line terminators. -/
theorem c5_heading_amended (l rest : List Char)
    (hl : l = '#' :: ' ' :: rest) (hne : dotCapture rest ≠ []) :
    classifyLine l = ⟨[⟨dotCapture rest, none, none⟩], .heading1, false⟩ := by
  subst hl
  unfold classifyLine
  rw [show h1Match ('#' :: ' ' :: rest) = some (dotCapture rest) from by
    simp [h1Match, hne]]

/-- C5 (witness): the amended statement at the line `"# Title"`. -/
theorem c5_heading_amended_witness :
    "# Title".data = '#' :: ' ' :: "Title".data ∧ dotCapture "Title".data ≠ [] ∧
    classifyLine "# Title".data
      = ⟨[⟨dotCapture "Title".data, none, none⟩], .heading1, false⟩ :=
  ⟨by decide, by decide,
   c5_heading_amended "# Title".data "Title".data (by decide) (by decide)⟩

/-- C6 (counterexample): the claim quantifies over every line, but heading
remainders are not inline-parsed: for the line `"# *a*"` the single run keeps
the italic markers verbatim, so the concatenated run text is `"*a*"`, not the
matched inline content with markers removed (`"a"`). -/
theorem c6_concat_counterexample :
    (classifyLine "# *a*".data).inlines = [⟨"*a*".data, none, none⟩] ∧
    concatTexts (classifyLine "# *a*".data).inlines ≠ visibleChars "*a*".data := by
  decide

/-- C6 (amended): for every non-heading line, concatenating the texts of the
classified segment's runs in order reproduces the matched inline content with
all style markers removed: bullet captures (the regex's `.+` capture, which
stops at a line terminator) and plain lines map to their visible characters,
blank lines to the empty text.  Heading lines reproduce their capture
verbatim, markers included. -/
theorem c6_concat_amended (l : List Char) :
    (∀ r, h1Match l = some r → concatTexts (classifyLine l).inlines = r) ∧
    (∀ r, h2Match l = some r → concatTexts (classifyLine l).inlines = r) ∧
    (∀ r, h3Match l = some r → concatTexts (classifyLine l).inlines = r) ∧
    (∀ r, bulletMatch l = some r →
      concatTexts (classifyLine l).inlines = visibleChars r) ∧
    (h1Match l = none → h2Match l = none → h3Match l = none →
      bulletMatch l = none → isBlank l = true →
      concatTexts (classifyLine l).inlines = []) ∧
    (h1Match l = none → h2Match l = none → h3Match l = none →
      bulletMatch l = none → isBlank l = false →
      concatTexts (classifyLine l).inlines = visibleChars l) := by
  refine ⟨?_, ?_, ?_, ?_, ?_, ?_⟩
  · intro r hr
    obtain ⟨rest, rfl, -, -⟩ := h1Match_eq_some hr
    unfold classifyLine
    rw [hr, concatTexts_cons, concatTexts_nil, List.append_nil]
  · intro r hr
    obtain ⟨rest, rfl, -, -⟩ := h2Match_eq_some hr
    have h1 : h1Match ('#' :: '#' :: ' ' :: rest) = none := by simp [h1Match]
    unfold classifyLine
    rw [h1, hr, concatTexts_cons, concatTexts_nil, List.append_nil]
  · intro r hr
    obtain ⟨rest, rfl, -, -⟩ := h3Match_eq_some hr
    have h1 : h1Match ('#' :: '#' :: '#' :: ' ' :: rest) = none := by simp [h1Match]
    have h2 : h2Match ('#' :: '#' :: '#' :: ' ' :: rest) = none := by simp [h2Match]
    unfold classifyLine
    rw [h1, h2, hr, concatTexts_cons, concatTexts_nil, List.append_nil]
  · intro r hr
    obtain ⟨c1, rest, hc1, rfl, -, -⟩ := bulletMatch_eq_some hr
    have hn : c1 ≠ '#' := by rcases hc1 with rfl | rfl <;> decide
    have h1 : h1Match (c1 :: ' ' :: rest) = none := by simp [h1Match, hn]
    have h2 : h2Match (c1 :: ' ' :: rest) = none := by
      cases rest <;> simp [h2Match, hn]
    have h3 : h3Match (c1 :: ' ' :: rest) = none := by
      rcases rest with - | ⟨d, r'⟩
      · simp [h3Match]
      · cases r' <;> simp [h3Match, hn]
    unfold classifyLine
    rw [h1, h2, h3, hr]
    simpa using concat_parseInlineL r []
  · intro h1 h2 h3 hb hblank
    unfold classifyLine
    rw [h1, h2, h3, hb, if_pos hblank]
    simp [concatTexts]
  · intro h1 h2 h3 hb hblank
    unfold classifyLine
    rw [h1, h2, h3, hb, if_neg (by simp [hblank])]
    simpa using concat_parseInlineL l []

/-- C6 (witness): the amended bullet-line case at `"- *a*"`: the runs
concatenate to the visible characters of the remainder `"*a*"`. -/
theorem c6_concat_amended_witness :
    bulletMatch "- *a*".data = some "*a*".data ∧
    concatTexts (classifyLine "- *a*".data).inlines = visibleChars "*a*".data :=
  ⟨by decide, (c6_concat_amended "- *a*".data).2.2.2.1 "*a*".data (by decide)⟩

/-- C7: for every input string the classifier produces exactly one segment
per line of `input.split("\n")` — and that number is the newline count plus
one, so no line (empty or trailing) is merged or dropped. -/
theorem c7_segment_count (s : String) :
    (segmentsOf s).length = (splitLines s.data).length ∧
    (splitLines s.data).length = s.data.count '\n' + 1 := by
  constructor
  · simp [segmentsOf]
  · exact splitLines_length s.data

/-- Helper for C8: an italic run with no closing `*` before end of input
consumes everything and still emits one styled run. -/
theorem parseItalicRun_no_close (l : List Char) (h : '*' ∉ l) :
    ∀ acc, parseItalicRun l acc = [⟨acc ++ l, none, some true⟩] := by
  induction l with
  | nil => intro acc; simp [parseItalicRun]
  | cons c rest ih =>
    intro acc
    have hc : c ≠ '*' := fun hc => h (hc ▸ List.mem_cons_self c rest)
    rw [show parseItalicRun (c :: rest) acc = parseItalicRun rest (acc ++ [c]) from by
      simp [parseItalicRun, hc]]
    rw [ih (fun hm => h (List.mem_cons_of_mem c hm)) (acc ++ [c])]
    simp

/-- C8: `parseInline "*unterminated"` produces exactly one InlineRun, italic,
containing `"unterminated"` and no plain trailing run; in general an
unterminated italic marker consumes to end of line and still emits exactly
one styled run, with no error. -/
theorem c8_unterminated :
    parseInline "*unterminated" = [⟨"unterminated".data, none, some true⟩] ∧
    ∀ rest : List Char, '*' ∉ rest →
      parseInlineL ('*' :: rest) [] = [⟨rest, none, some true⟩] := by
  constructor
  · decide
  · intro rest h
    match rest with
    | [] => decide
    | d :: r2 =>
      have hd : d ≠ '*' := fun hd => h (hd ▸ List.mem_cons_self d r2)
      rw [show parseInlineL ('*' :: d :: r2) [] = flushAcc [] ++ parseItalicRun (d :: r2) []
          from by simp [parseInlineL, hd]]
      rw [parseItalicRun_no_close (d :: r2) h []]
      simp [flushAcc]

/-- C8 (witness): the general unterminated-marker statement at `"*abc"`. -/
theorem c8_unterminated_witness :
    '*' ∉ "abc".data ∧
    parseInlineL ('*' :: "abc".data) [] = [⟨"abc".data, none, some true⟩] :=
  ⟨by decide, c8_unterminated.2 "abc".data (by decide)⟩

/-- C9: two bullet lines produce one insertText with text
`"item one\nitem two\n"` and exactly two createParagraphBullets requests over
`[1,10)` and `[10,19)` — each spanning one full line including its trailing
newline — and no updateParagraphStyle request. -/
theorem c9_bullets :
    markdownToDocRequests "- item one\n- item two"
      = [.insertText 1 "item one\nitem two\n".data,
         .createParagraphBullets 1 10,
         .createParagraphBullets 10 19] := by
  decide

/-- C10: for every input, the request list starts with exactly one insertText
request — located at position 1 and carrying a non-empty buffer that ends in
a newline, with one newline per input line — followed only by styling
requests. -/
theorem c10_insert_shape (s : String) :
    markdownToDocRequests s
      = Request.insertText 1 (fullTextOf s)
        :: ((styleRangesOf s).map rangeRequests).flatten ∧
    fullTextOf s ≠ [] ∧
    (∃ t, fullTextOf s = t ++ ['\n']) ∧
    (fullTextOf s).count '\n' = (segmentsOf s).length ∧
    (markdownToDocRequests s).countP (fun r => r.isInsert) = 1 := by
  refine ⟨markdownToDocRequests_eq s, fullTextOf_ne_nil s, fullTextOf_ends_newline s,
    fullTextOf_count_newline s, ?_⟩
  rw [markdownToDocRequests_eq]
  have hz : List.countP (fun r => r.isInsert)
      ((List.map rangeRequests (styleRangesOf s)).flatten) = 0 := by
    refine List.countP_eq_zero.2 ?_
    intro req hreq
    obtain ⟨l, hl, hmem⟩ := List.mem_flatten.1 hreq
    obtain ⟨rng, -, rfl⟩ := List.mem_map.1 hl
    simpa using rangeRequests_no_insert rng req hmem
  rw [List.countP_cons, hz]
  simp [Request.isInsert]

end KualiDocs
